import Mathlib

/-!
Shallow embedding of `creme/utils/math.py`.

Python dictionaries (sparse vectors and sparse matrices) are modelled as
association lists `List (α × β)`: lookup returns the first matching entry,
assignment replaces the first matching entry in place (keeping its position)
or appends a fresh entry at the end, exactly as a Python dict preserves
insertion order.  Python floats are modelled as exact rationals `ℚ` for the
dictionary algebra and as reals `ℝ` for the `exp`-based scalar transforms.
-/

set_option linter.unusedSectionVars false

namespace CremeMath

variable {α : Type} {β : Type} [DecidableEq α]

/-- Python `d.get(k, v0)`: value of the first entry with key `k`, else `v0`. -/
def dget (d : List (α × β)) (k : α) (v0 : β) : β :=
  match d with
  | [] => v0
  | e :: rest => if e.1 = k then e.2 else dget rest k v0

/-- Python `d[k]` as an optional lookup (first entry with key `k`). -/
def dlook (d : List (α × β)) (k : α) : Option β :=
  match d with
  | [] => none
  | e :: rest => if e.1 = k then some e.2 else dlook rest k

/-- Python `d[k] = v`: replace the first entry with key `k` in place,
or append a fresh entry at the end. -/
def dset (d : List (α × β)) (k : α) (v : β) : List (α × β) :=
  match d with
  | [] => [(k, v)]
  | e :: rest => if e.1 = k then (k, v) :: rest else e :: dset rest k v

/-- The list of keys of a dictionary, in insertion order. -/
def keys (d : List (α × β)) : List α := d.map Prod.fst

/-- Membership of a key (`k in d` in Python). -/
abbrev containsKey (d : List (α × β)) (k : α) : Prop := k ∈ keys d

/-- A genuine Python dict never has two entries with the same key. -/
def NodupKeys (d : List (α × β)) : Prop := (keys d).Nodup

instance (d : List (α × β)) : Decidable (NodupKeys d) :=
  List.nodupDecidable (keys d)

@[simp] lemma keys_nil : keys ([] : List (α × β)) = [] := rfl

@[simp] lemma keys_cons (e : α × β) (d : List (α × β)) :
    keys (e :: d) = e.1 :: keys d := rfl

@[simp] lemma dget_nil (k : α) (v0 : β) : dget ([] : List (α × β)) k v0 = v0 := rfl

lemma dget_cons (e : α × β) (d : List (α × β)) (k : α) (v0 : β) :
    dget (e :: d) k v0 = if e.1 = k then e.2 else dget d k v0 := rfl

@[simp] lemma dget_cons_self (e : α × β) (d : List (α × β)) (v0 : β) :
    dget (e :: d) e.1 v0 = e.2 := by
  simp [dget_cons]

lemma dget_cons_ne (e : α × β) (d : List (α × β)) {k : α} (h : e.1 ≠ k) (v0 : β) :
    dget (e :: d) k v0 = dget d k v0 := by
  simp [dget_cons, h]

@[simp] lemma dlook_nil (k : α) : dlook ([] : List (α × β)) k = none := rfl

lemma dlook_cons (e : α × β) (d : List (α × β)) (k : α) :
    dlook (e :: d) k = if e.1 = k then some e.2 else dlook d k := rfl

lemma dget_eq_dlook (d : List (α × β)) (k : α) (v0 : β) :
    dget d k v0 = (dlook d k).getD v0 := by
  induction d with
  | nil => rfl
  | cons e rest ih =>
      by_cases h : e.1 = k
      · simp [dget_cons, dlook_cons, h]
      · simp [dget_cons, dlook_cons, h, ih]

lemma dlook_eq_none_of_not_mem {d : List (α × β)} {k : α} (h : k ∉ keys d) :
    dlook d k = none := by
  induction d with
  | nil => rfl
  | cons e rest ih =>
      have h1 : e.1 ≠ k := by
        intro hk; exact h (by simp [hk])
      have h2 : k ∉ keys rest := fun hk => h (by simp [hk])
      simp [dlook_cons, h1, ih h2]

lemma dget_of_not_mem {d : List (α × β)} {k : α} (h : k ∉ keys d) (v0 : β) :
    dget d k v0 = v0 := by
  rw [dget_eq_dlook, dlook_eq_none_of_not_mem h]
  rfl

lemma dlook_isSome_of_mem {d : List (α × β)} {k : α} (h : k ∈ keys d) :
    (dlook d k).isSome := by
  induction d with
  | nil => simp at h
  | cons e rest ih =>
      by_cases h1 : e.1 = k
      · simp [dlook_cons, h1]
      · have h2 : k ∈ keys rest := by
          rcases (by simpa using h) with h | h
          · exact absurd h.symm h1
          · exact h
        simp [dlook_cons, h1, ih h2]

@[simp] lemma dlook_dset_self (d : List (α × β)) (k : α) (v : β) :
    dlook (dset d k v) k = some v := by
  induction d with
  | nil => simp [dset, dlook_cons]
  | cons e rest ih =>
      by_cases h : e.1 = k
      · simp [dset, h, dlook_cons]
      · simp [dset, h, dlook_cons, ih]

lemma dlook_dset_ne (d : List (α × β)) {q k : α} (h : q ≠ k) (v : β) :
    dlook (dset d k v) q = dlook d q := by
  induction d with
  | nil => simp [dset, dlook_cons, Ne.symm h]
  | cons e rest ih =>
      by_cases h1 : e.1 = k
      · subst h1
        have h2 : e.1 ≠ q := fun hh => h hh.symm
        rw [show dset (e :: rest) e.1 v = (e.1, v) :: rest from by simp [dset]]
        rw [dlook_cons, dlook_cons]
        simp [h2]
      · rw [show dset (e :: rest) k v = e :: dset rest k v from by simp [dset, h1]]
        rw [dlook_cons, dlook_cons, ih]

@[simp] lemma dget_dset_self (d : List (α × β)) (k : α) (v : β) (v0 : β) :
    dget (dset d k v) k v0 = v := by
  rw [dget_eq_dlook, dlook_dset_self]
  rfl

lemma dget_dset_ne (d : List (α × β)) {q k : α} (h : q ≠ k) (v : β) (v0 : β) :
    dget (dset d k v) q v0 = dget d q v0 := by
  rw [dget_eq_dlook, dlook_dset_ne d h, dget_eq_dlook]

lemma mem_keys_dset (d : List (α × β)) (q k : α) (v : β) :
    q ∈ keys (dset d k v) ↔ q ∈ keys d ∨ q = k := by
  induction d with
  | nil => simp [dset]
  | cons e rest ih =>
      by_cases h : e.1 = k
      · subst h
        constructor
        · intro hq
          rcases (by simpa [dset] using hq) with h | h
          · exact Or.inr h
          · exact Or.inl (by simp [h])
        · intro hq
          rcases hq with h | h
          · rcases (by simpa using h) with h | h
            · simp [dset, h]
            · simp [dset, h]
          · simp [dset, h]
      · constructor
        · intro hq
          rcases (by simpa [dset, h] using hq) with h1 | h1
          · exact Or.inl (by simp [h1])
          · rcases (ih.mp h1) with h2 | h2
            · exact Or.inl (by simp [h2])
            · exact Or.inr h2
        · intro hq
          have : q = e.1 ∨ q ∈ keys (dset rest k v) := by
            rcases hq with h1 | h1
            · rcases (by simpa using h1) with h2 | h2
              · exact Or.inl h2
              · exact Or.inr (ih.mpr (Or.inl h2))
            · exact Or.inr (ih.mpr (Or.inr h1))
          simpa [dset, h] using this

lemma nodupKeys_dset {d : List (α × β)} (hd : NodupKeys d) (k : α) (v : β) :
    NodupKeys (dset d k v) := by
  induction d with
  | nil => simp [dset, NodupKeys, keys]
  | cons e rest ih =>
      have hd' : e.1 ∉ keys rest ∧ (keys rest).Nodup := by
        simpa [NodupKeys, List.nodup_cons] using hd
      by_cases h : e.1 = k
      · subst h
        have : NodupKeys ((e.1, v) :: rest) := by
          simpa [NodupKeys, List.nodup_cons] using hd'
        simpa [dset] using this
      · have htail : NodupKeys (dset rest k v) := ih hd'.2
        have hhead : e.1 ∉ keys (dset rest k v) := by
          intro hmem
          rcases (mem_keys_dset rest e.1 k v).mp hmem with h1 | h1
          · exact hd'.1 h1
          · exact h h1
        have : NodupKeys (e :: dset rest k v) := by
          simpa [NodupKeys, List.nodup_cons] using ⟨hhead, htail⟩
        simpa [dset, h] using this

lemma mem_keys_iff {d : List (α × β)} {q : α} :
    q ∈ keys d ↔ ∃ e ∈ d, e.1 = q := by
  simp [keys, List.mem_map, eq_comm]

/-- Python `itertools.product(l1, l2)`: all pairs in row-major order. -/
def pyproduct {ι₁ ι₂ : Type} : List ι₁ → List ι₂ → List (ι₁ × ι₂)
  | [], _ => []
  | a :: l1, l2 => l2.map (fun b => (a, b)) ++ pyproduct l1 l2

lemma mem_pyproduct {ι₁ ι₂ : Type} {l1 : List ι₁} {l2 : List ι₂} {p : ι₁ × ι₂} :
    p ∈ pyproduct l1 l2 ↔ p.1 ∈ l1 ∧ p.2 ∈ l2 := by
  induction l1 with
  | nil => simp [pyproduct]
  | cons a l1 ih =>
      rcases p with ⟨p1, p2⟩
      simp only [pyproduct, List.mem_append, List.mem_map, ih, List.mem_cons]
      constructor
      · rintro (⟨b, hb, heq⟩ | ⟨h1, h2⟩)
        · cases heq
          exact ⟨Or.inl rfl, hb⟩
        · exact ⟨Or.inr h1, h2⟩
      · rintro ⟨h1 | h1, h2⟩
        · subst h1
          exact Or.inl ⟨p2, h2, rfl⟩
        · exact Or.inr ⟨h1, h2⟩

lemma sum_map_pyproduct {ι₁ ι₂ : Type} (l1 : List ι₁) (l2 : List ι₂)
    (f : ι₁ × ι₂ → ℚ) :
    ((pyproduct l1 l2).map f).sum
      = (l1.map (fun a => (l2.map (fun b => f (a, b))).sum)).sum := by
  induction l1 with
  | nil => simp [pyproduct]
  | cons a l1 ih =>
      simp [pyproduct, List.map_append, List.sum_append, ih,
        List.map_map, Function.comp_def]

/-! ## The functions of creme/utils/math.py -/

/-- A sparse vector: Python dict from key to float. -/
abbrev Vec (α : Type) : Type := List (α × ℚ)

/-- A sparse 2-D matrix: Python dict from a (row, column) pair to float. -/
abbrev Mat (α : Type) : Type := List ((α × α) × ℚ)

/-- Embedding of `dot(x, y)`: iterate over the shorter dict, probe the other. -/
def dot (x y : Vec α) : ℚ :=
  if x.length < y.length then
    (x.map (fun e => e.2 * dget y e.1 0)).sum
  else
    (y.map (fun e => dget x e.1 0 * e.2)).sum

/-- Embedding of `outer(u, v)`: dict comprehension over the full cross
product of present entries. -/
def outer (u v : Vec α) : Mat α :=
  (pyproduct u v).foldl (fun C e => dset C (e.1.1, e.2.1) (e.1.2 * e.2.2)) []

/-- Generic conditional accumulation loop: the shape of the double loop in
`matmul2d` (`C[key] = C.get(key, 0.) + val` whenever `cond` holds). -/
def accum {ι : Type} (key : ι → α) (val : ι → ℚ) (cond : ι → Prop)
    [DecidablePred cond] (l : List ι) (C0 : List (α × ℚ)) : List (α × ℚ) :=
  l.foldl
    (fun C e => if cond e then dset C (key e) (dget C (key e) 0 + val e) else C)
    C0

/-- Embedding of `matmul2d(A, B)`: iterate `itertools.product(A.items(),
B.items())` and accumulate `x * y` at `(i, j)` whenever the inner indices
match (`k1 == k2`). -/
def matmul2d (A B : Mat α) : Mat α :=
  accum (fun e => (e.1.1.1, e.2.1.2)) (fun e => e.1.2 * e.2.2)
    (fun e => e.1.1.2 = e.2.1.1) (pyproduct A B) []

/-- Embedding of `dotvecmat(x, A)`.  The update in the source reads
`C.get(j, 0.)` (the row index) while writing `C[k]` (the column index):
this mismatch is reproduced faithfully. -/
def dotvecmat (x : Vec α) (A : Mat α) : Vec α :=
  (pyproduct x A).foldl
    (fun C e =>
      if e.1.1 = e.2.1.1 then
        dset C e.2.1.2 (dget C e.2.1.1 0 + e.1.2 * e.2.2)
      else C)
    []

/-- Embedding of `sherman_morrison(A_inv, u, v)`: compute
`den = 1 + dot(dotvecmat(u, A_inv), v)`, then subtract
`correction[k] / den` from `A_inv.get(k, 0)` for every key of
`correction = matmul2d(matmul2d(A_inv, outer(u, v)), A_inv)`, in place. -/
def sherman_morrison (A_inv : Mat α) (u v : Vec α) : Mat α :=
  let den := 1 + dot (dotvecmat u A_inv) v
  (matmul2d (matmul2d A_inv (outer u v)) A_inv).foldl
    (fun acc e => dset acc e.1 (dget acc e.1 0 - e.2 / den)) A_inv

/-- Embedding of `prod(iterable)`: `functools.reduce(operator.mul, iterable, 1)`. -/
def pyprod (l : List ℚ) : ℚ := l.foldl (· * ·) 1

/-- Python `min(xs, key=len)`: the first element of least length, or a
`ValueError` (modelled as `none`) when the sequence is empty. -/
def minByLen : List (Vec α) → Option (Vec α)
  | [] => none
  | x :: rest => some (rest.foldl (fun acc y => if y.length < acc.length then y else acc) x)

/-- Embedding of `chain_dot(*xs)`: for each key of the smallest argument,
multiply that key's value across all arguments, and sum.  `none` models the
`ValueError` raised by `min` on an empty argument tuple. -/
def chain_dot (xs : List (Vec α)) : Option ℚ :=
  match minByLen xs with
  | none => none
  | some ksrc => some ((ksrc.map (fun e => pyprod (xs.map (fun x => dget x e.1 0)))).sum)

/-- Embedding of `sigmoid(x)`. -/
noncomputable def sigmoid (x : ℝ) : ℝ :=
  if x < -30 then 0
  else if x > 30 then 1
  else 1 / (1 + Real.exp (-x))

/-- Embedding of `clamp(x, minimum, maximum)`. -/
noncomputable def clamp (x minimum maximum : ℝ) : ℝ :=
  max (min x maximum) minimum

/-- Python `max(y_pred.values())` for a non-empty dict (junk value `0` on
the empty dict, where the source raises before reaching it). -/
noncomputable def maxVal (y : List (α × ℝ)) : ℝ :=
  match y with
  | [] => 0
  | e :: rest => rest.foldl (fun a b => max a b.2) e.2

/-- Embedding of `softmax(y_pred)`: empty input is returned unchanged;
otherwise every value `p` becomes `exp(p - max) / total` where `total` is
the sum of the shifted exponentials. -/
noncomputable def softmax (y : List (α × ℝ)) : List (α × ℝ) :=
  match y with
  | [] => []
  | _ :: _ =>
    let M := maxVal y
    let T := (y.map (fun e => Real.exp (e.2 - M))).sum
    y.map (fun e => (e.1, Real.exp (e.2 - M) / T))

/-- Sum of the values of a dict (used to state the softmax contract). -/
noncomputable def sumValues (y : List (α × ℝ)) : ℝ := (y.map Prod.snd).sum

/-- The key set of a dict as a finite set. -/
def keysF (d : List (α × β)) : Finset α := (keys d).toFinset

/-- The inner indices `k` for which both `A[(i, k)]` and `B[(k, j)]` are
present. -/
def innerMatch (A B : Mat α) (i j : α) : Finset α :=
  (A.map (fun e => e.1.2)).toFinset.filter
    (fun k => containsKey A (i, k) ∧ containsKey B (k, j))

/-! ## Properties of the conditional accumulation loop -/

lemma accum_cons {ι : Type} (key : ι → α) (val : ι → ℚ) (cond : ι → Prop)
    [DecidablePred cond] (e : ι) (l : List ι) (C0 : List (α × ℚ)) :
    accum key val cond (e :: l) C0
      = accum key val cond l
          (if cond e then dset C0 (key e) (dget C0 (key e) 0 + val e) else C0) := by
  simp [accum]

lemma dget_accum {ι : Type} (key : ι → α) (val : ι → ℚ) (cond : ι → Prop)
    [DecidablePred cond] (l : List ι) (C0 : List (α × ℚ)) (q : α) :
    dget (accum key val cond l C0) q 0
      = dget C0 q 0
        + (l.map (fun e => if cond e ∧ key e = q then val e else 0)).sum := by
  induction l generalizing C0 with
  | nil => simp [accum]
  | cons e l ih =>
      rw [accum_cons, ih]
      by_cases hc : cond e
      · by_cases hk : key e = q
        · subst hk
          simp [hc, add_assoc]
        · simp [hc, hk, dget_dset_ne _ (fun h => hk h.symm)]
      · simp [hc]

lemma mem_keys_accum {ι : Type} (key : ι → α) (val : ι → ℚ) (cond : ι → Prop)
    [DecidablePred cond] (l : List ι) (C0 : List (α × ℚ)) (q : α) :
    q ∈ keys (accum key val cond l C0)
      ↔ q ∈ keys C0 ∨ ∃ e ∈ l, cond e ∧ key e = q := by
  induction l generalizing C0 with
  | nil => simp [accum]
  | cons e l ih =>
      rw [accum_cons, ih]
      by_cases hc : cond e
      · simp only [hc, if_pos]
        rw [mem_keys_dset]
        constructor
        · rintro ((h | h) | h)
          · exact Or.inl h
          · exact Or.inr ⟨e, by simp, hc, h.symm⟩
          · rcases h with ⟨e1, he1, h1, h2⟩
            exact Or.inr ⟨e1, by simp [he1], h1, h2⟩
        · rintro (h | ⟨e1, he1, h1, h2⟩)
          · exact Or.inl (Or.inl h)
          · rcases (by simpa using he1) with he1 | he1
            · subst he1
              exact Or.inl (Or.inr h2.symm)
            · exact Or.inr ⟨e1, he1, h1, h2⟩
      · simp only [hc, if_neg (fun h => hc h)]
        constructor
        · rintro (h | ⟨e1, he1, h1, h2⟩)
          · exact Or.inl h
          · exact Or.inr ⟨e1, by simp [he1], h1, h2⟩
        · rintro (h | ⟨e1, he1, h1, h2⟩)
          · exact Or.inl h
          · rcases (by simpa using he1) with he1 | he1
            · subst he1
              exact absurd h1 hc
            · exact Or.inr ⟨e1, he1, h1, h2⟩

lemma nodupKeys_accum {ι : Type} (key : ι → α) (val : ι → ℚ) (cond : ι → Prop)
    [DecidablePred cond] (l : List ι) {C0 : List (α × ℚ)} (h : NodupKeys C0) :
    NodupKeys (accum key val cond l C0) := by
  induction l generalizing C0 with
  | nil => simpa [accum] using h
  | cons e l ih =>
      rw [accum_cons]
      by_cases hc : cond e
      · simpa [hc] using ih (nodupKeys_dset h _ _)
      · simpa [hc] using ih h

/-! ## Converting entry sums to finite sums over the key set -/

lemma sum_entries {d : List (α × ℚ)} (hd : NodupKeys d) (g : α → ℚ → ℚ) :
    (d.map (fun e => g e.1 e.2)).sum = ∑ k ∈ keysF d, g k (dget d k 0) := by
  induction d with
  | nil => simp [keysF]
  | cons e rest ih =>
      have hd' : e.1 ∉ keys rest ∧ NodupKeys rest := by
        simpa [NodupKeys, List.nodup_cons] using hd
      have hnot : e.1 ∉ keysF rest := by
        simpa [keysF, List.mem_toFinset] using hd'.1
      have hkeys : keysF (e :: rest) = insert e.1 (keysF rest) := by
        simp [keysF, List.toFinset_cons]
      rw [hkeys]
      rw [Finset.sum_insert hnot]
      have hcongr : ∀ k ∈ keysF rest, g k (dget (e :: rest) k 0) = g k (dget rest k 0) := by
        intro k hk
        have : e.1 ≠ k := by
          intro h
          exact hnot (h ▸ hk)
        rw [dget_cons_ne _ _ this]
      calc (List.map (fun e => g e.1 e.2) (e :: rest)).sum
          = g e.1 e.2 + (rest.map (fun e => g e.1 e.2)).sum := by simp
        _ = g e.1 (dget (e :: rest) e.1 0) + ∑ k ∈ keysF rest, g k (dget rest k 0) := by
              rw [ih hd'.2, dget_cons_self]
        _ = g e.1 (dget (e :: rest) e.1 0)
              + ∑ k ∈ keysF rest, g k (dget (e :: rest) k 0) := by
              rw [Finset.sum_congr rfl hcongr]

lemma sum_map_ite_key {d : List (α × ℚ)} (hd : NodupKeys d) (q : α) (c : ℚ) :
    (d.map (fun e => if e.1 = q then c * e.2 else 0)).sum = c * dget d q 0 := by
  induction d with
  | nil => simp
  | cons e rest ih =>
      have hd' : e.1 ∉ keys rest ∧ NodupKeys rest := by
        simpa [NodupKeys, List.nodup_cons] using hd
      by_cases h : e.1 = q
      · subst h
        have hzero : (rest.map (fun e2 => if e2.1 = e.1 then c * e2.2 else 0)).sum = 0 := by
          apply List.sum_eq_zero
          intro x hx
          rcases List.mem_map.mp hx with ⟨e2, he2, hx⟩
          have hmem : e2.1 ∈ keys rest := mem_keys_iff.mpr ⟨e2, he2, rfl⟩
          have : e2.1 ≠ e.1 := fun hh => hd'.1 (hh ▸ hmem)
          simpa [this] using hx.symm
        simp [hzero]
      · simp [h, ih hd'.2, dget_cons_ne _ _ h]

lemma dget_zero_of_not_mem_keysF {d : List (α × ℚ)} {k : α}
    (h : k ∉ keysF d) : dget d k 0 = 0 := by
  refine dget_of_not_mem ?_ 0
  simpa [keysF, List.mem_toFinset] using h

/-! ## Canonical form of the dot product -/

lemma dot_eq_inter {x y : Vec α} (hx : NodupKeys x) (hy : NodupKeys y) :
    dot x y = ∑ k ∈ keysF x ∩ keysF y, dget x k 0 * dget y k 0 := by
  rw [dot]
  by_cases hlen : x.length < y.length
  · rw [if_pos hlen, sum_entries hx (fun k v => v * dget y k 0)]
    refine (Finset.sum_subset Finset.inter_subset_left ?_).symm
    intro k hk hk2
    have : k ∉ keysF y := fun hy2 => hk2 (Finset.mem_inter.mpr ⟨hk, hy2⟩)
    rw [dget_zero_of_not_mem_keysF this, mul_zero]
  · rw [if_neg hlen, sum_entries hy (fun k v => dget x k 0 * v)]
    refine (Finset.sum_subset Finset.inter_subset_right ?_).symm
    intro k hk hk2
    have : k ∉ keysF x := fun hx2 => hk2 (Finset.mem_inter.mpr ⟨hx2, hk⟩)
    rw [dget_zero_of_not_mem_keysF this, zero_mul]

/-! ## Characterisation of matmul2d -/

lemma mem_innerMatch {A B : Mat α} {i j k : α} :
    k ∈ innerMatch A B i j ↔ containsKey A (i, k) ∧ containsKey B (k, j) := by
  rw [innerMatch, Finset.mem_filter]
  constructor
  · rintro ⟨_, h⟩
    exact h
  · rintro ⟨h1, h2⟩
    refine ⟨?_, h1, h2⟩
    rcases mem_keys_iff.mp h1 with ⟨e, he, he1⟩
    exact List.mem_toFinset.mpr (List.mem_map.mpr ⟨e, he, by rw [he1]⟩)

lemma matmul2d_dget {A B : Mat α} (hA : NodupKeys A) (hB : NodupKeys B) (i j : α) :
    dget (matmul2d A B) (i, j) 0
      = ∑ k ∈ innerMatch A B i j, dget A (i, k) 0 * dget B (k, j) 0 := by
  rw [matmul2d, dget_accum, sum_map_pyproduct]
  rw [dget_nil, zero_add]
  have hinner : ∀ a ∈ A,
      (B.map (fun b => if a.1.2 = b.1.1 ∧ (a.1.1, b.1.2) = (i, j) then a.2 * b.2 else 0)).sum
        = if a.1.1 = i then a.2 * dget B (a.1.2, j) 0 else 0 := by
    intro a _
    by_cases hai : a.1.1 = i
    · rw [if_pos hai]
      have hfun : ∀ b ∈ B,
          (if a.1.2 = b.1.1 ∧ (a.1.1, b.1.2) = (i, j) then a.2 * b.2 else 0)
            = (if b.1 = (a.1.2, j) then a.2 * b.2 else 0) := by
        intro b _
        by_cases hb : b.1 = (a.1.2, j)
        · have : a.1.2 = b.1.1 ∧ (a.1.1, b.1.2) = (i, j) := by
            constructor
            · rw [hb]
            · rw [hb]
              simp [hai]
          rw [if_pos this, if_pos hb]
        · have : ¬(a.1.2 = b.1.1 ∧ (a.1.1, b.1.2) = (i, j)) := by
            rintro ⟨h1, h2⟩
            apply hb
            have h3 : b.1.2 = j := (Prod.mk.injEq _ _ _ _ ▸ h2).2
            have h4 : b.1.1 = a.1.2 := h1.symm
            rw [← h4, ← h3]
          rw [if_neg this, if_neg hb]
      rw [List.map_congr_left hfun, sum_map_ite_key hB]
    · rw [if_neg hai]
      apply List.sum_eq_zero
      intro z hz
      rcases List.mem_map.mp hz with ⟨b, _, hzb⟩
      simpa [hai] using hzb.symm
  rw [List.map_congr_left hinner]
  rw [sum_entries hA (fun q v => if q.1 = i then v * dget B (q.2, j) 0 else 0)]
  have himg : (innerMatch A B i j).image (fun k => (i, k)) ⊆ keysF A := by
    intro q hq
    rcases Finset.mem_image.mp hq with ⟨k, hk, hq⟩
    have hA1 := (mem_innerMatch.mp hk).1
    subst hq
    simpa [keysF, List.mem_toFinset] using hA1
  have hij : ∀ q ∈ keysF A, q ∉ (innerMatch A B i j).image (fun k => (i, k)) →
      (if q.1 = i then dget A q 0 * dget B (q.2, j) 0 else 0) = 0 := by
    intro q hq hq2
    by_cases hqi : q.1 = i
    · rw [if_pos hqi]
      have hqA : q ∈ keys A := by simpa [keysF, List.mem_toFinset] using hq
      have hq2' : q.2 ∉ innerMatch A B i j := by
        intro hmem
        apply hq2
        refine Finset.mem_image.mpr ⟨q.2, hmem, ?_⟩
        rw [← hqi]
      have hqeq : (i, q.2) = q := by
        rw [← hqi]
      have hBnot : ¬ containsKey B (q.2, j) := by
        intro hB2
        exact hq2' (mem_innerMatch.mpr ⟨by rw [hqeq]; exact hqA, hB2⟩)
      rw [dget_of_not_mem (fun h => hBnot h) 0, mul_zero]
    · rw [if_neg hqi]
  rw [← Finset.sum_subset himg hij]
  rw [Finset.sum_image (by intro k1 _ k2 _ h; exact (Prod.mk.injEq _ _ _ _ ▸ h).2)]
  refine Finset.sum_congr rfl ?_
  intro k _
  rw [if_pos rfl]

lemma matmul2d_mem (A B : Mat α) (i j : α) :
    (i, j) ∈ keys (matmul2d A B)
      ↔ ∃ k, containsKey A (i, k) ∧ containsKey B (k, j) := by
  rw [matmul2d, mem_keys_accum]
  constructor
  · rintro (h | ⟨e, he, h1, h2⟩)
    · simp at h
    · rcases mem_pyproduct.mp he with ⟨ha, hb⟩
      refine ⟨e.1.1.2, ?_, ?_⟩
      · refine mem_keys_iff.mpr ⟨e.1, ha, ?_⟩
        have : e.1.1.1 = i := (Prod.mk.injEq _ _ _ _ ▸ h2).1
        calc e.1.1 = (e.1.1.1, e.1.1.2) := rfl
          _ = (i, e.1.1.2) := by rw [this]
      · refine mem_keys_iff.mpr ⟨e.2, hb, ?_⟩
        have h3 : e.2.1.2 = j := (Prod.mk.injEq _ _ _ _ ▸ h2).2
        calc e.2.1 = (e.2.1.1, e.2.1.2) := rfl
          _ = (e.1.1.2, j) := by rw [← h1, h3]
  · rintro ⟨k, hA1, hB1⟩
    rcases mem_keys_iff.mp hA1 with ⟨a, ha, ha1⟩
    rcases mem_keys_iff.mp hB1 with ⟨b, hb, hb1⟩
    refine Or.inr ⟨(a, b), mem_pyproduct.mpr ⟨ha, hb⟩, ?_, ?_⟩
    · show a.1.2 = b.1.1
      rw [ha1, hb1]
    · show (a.1.1, b.1.2) = (i, j)
      rw [ha1, hb1]

/-! ## Properties of chain_dot -/

lemma foldl_mul_eq (l : List ℚ) : ∀ a : ℚ, l.foldl (· * ·) a = a * l.prod := by
  induction l with
  | nil => intro a; simp
  | cons b l ih =>
      intro a
      rw [List.foldl_cons, ih (a * b), List.prod_cons, mul_assoc]

lemma pyprod_eq_prod (l : List ℚ) : pyprod l = l.prod := by
  rw [pyprod, foldl_mul_eq, one_mul]

lemma foldl_minlen_mem (rest : List (Vec α)) :
    ∀ x : Vec α,
      (rest.foldl (fun acc y => if y.length < acc.length then y else acc) x) = x
        ∨ (rest.foldl (fun acc y => if y.length < acc.length then y else acc) x) ∈ rest := by
  induction rest with
  | nil => intro x; exact Or.inl rfl
  | cons y rest ih =>
      intro x
      rw [List.foldl_cons]
      rcases ih (if y.length < x.length then y else x) with h | h
      · rw [h]
        by_cases hc : y.length < x.length
        · exact Or.inr (by simp [hc])
        · exact Or.inl (by simp [hc])
      · exact Or.inr (by simp [h])

lemma minByLen_mem {xs : List (Vec α)} {m : Vec α} (h : minByLen xs = some m) :
    m ∈ xs := by
  cases xs with
  | nil => simp [minByLen] at h
  | cons x rest =>
      have hm : m = rest.foldl (fun acc y => if y.length < acc.length then y else acc) x := by
        simpa [minByLen] using h.symm
      rcases foldl_minlen_mem rest x with h1 | h1
      · rw [hm, h1]
        simp
      · rw [hm]
        simp [h1]

lemma chain_dot_cons (x : Vec α) (rest : List (Vec α)) :
    chain_dot (x :: rest)
      = some (((rest.foldl (fun acc y => if y.length < acc.length then y else acc) x).map
          (fun e => pyprod ((x :: rest).map (fun xv => dget xv e.1 0)))).sum) := rfl

lemma chain_sum_member {xs : List (Vec α)} (hall : ∀ d ∈ xs, NodupKeys d)
    {m m' : Vec α} (hm : m ∈ xs) (hm' : m' ∈ xs) :
    (m.map (fun e => pyprod (xs.map (fun x => dget x e.1 0)))).sum
      = (m'.map (fun e => pyprod (xs.map (fun x => dget x e.1 0)))).sum := by
  have hcanon : ∀ mm : Vec α, mm ∈ xs →
      (mm.map (fun e => pyprod (xs.map (fun x => dget x e.1 0)))).sum
        = ∑ k ∈ keysF mm, pyprod (xs.map (fun x => dget x k 0)) := by
    intro mm hmm
    exact sum_entries (hall mm hmm) (fun k _ => pyprod (xs.map (fun x => dget x k 0)))
  have hzero : ∀ (mm : Vec α), mm ∈ xs → ∀ k, k ∉ keysF mm →
      pyprod (xs.map (fun x => dget x k 0)) = 0 := by
    intro mm hmm k hk
    rw [pyprod_eq_prod]
    apply List.prod_eq_zero
    refine List.mem_map.mpr ⟨mm, hmm, ?_⟩
    exact dget_zero_of_not_mem_keysF hk
  have hinter : ∀ (a b : Vec α), a ∈ xs → b ∈ xs →
      (∑ k ∈ keysF a, pyprod (xs.map (fun x => dget x k 0)))
        = ∑ k ∈ keysF a ∩ keysF b, pyprod (xs.map (fun x => dget x k 0)) := by
    intro a b ha hb
    refine (Finset.sum_subset Finset.inter_subset_left ?_).symm
    intro k hk1 hk2
    have : k ∉ keysF b := fun hkb => hk2 (Finset.mem_inter.mpr ⟨hk1, hkb⟩)
    exact hzero b hb k this
  rw [hcanon m hm, hcanon m' hm', hinter m m' hm hm', hinter m' m hm' hm,
    Finset.inter_comm]

/-! ## The in-place update loop of sherman_morrison -/

lemma updfold_not_mem (g : ℚ → ℚ → ℚ) (l : List (α × ℚ)) :
    ∀ (d0 : List (α × ℚ)) (q : α), q ∉ keys l →
      dlook (l.foldl (fun acc e => dset acc e.1 (g (dget acc e.1 0) e.2)) d0) q
        = dlook d0 q := by
  induction l with
  | nil => intro d0 q _; rfl
  | cons e l ih =>
      intro d0 q hq
      have hq1 : q ≠ e.1 := fun h => hq (by simp [h])
      have hq2 : q ∉ keys l := fun h => hq (by simp [h])
      rw [List.foldl_cons, ih _ q hq2, dlook_dset_ne _ hq1]

lemma updfold_mem (g : ℚ → ℚ → ℚ) (l : List (α × ℚ)) :
    NodupKeys l → ∀ (d0 : List (α × ℚ)) (q : α), q ∈ keys l →
      dlook (l.foldl (fun acc e => dset acc e.1 (g (dget acc e.1 0) e.2)) d0) q
        = some (g (dget d0 q 0) (dget l q 0)) := by
  induction l with
  | nil => intro _ d0 q hq; simp at hq
  | cons e l ih =>
      intro hl d0 q hq
      have hl' : e.1 ∉ keys l ∧ NodupKeys l := by
        simpa [NodupKeys, List.nodup_cons] using hl
      rw [List.foldl_cons]
      by_cases hqe : q = e.1
      · subst hqe
        rw [updfold_not_mem g l _ e.1 hl'.1, dlook_dset_self, dget_cons_self]
      · have hql : q ∈ keys l := by
          rcases (by simpa using hq) with h | h
          · exact absurd h hqe
          · exact h
        rw [ih hl'.2 _ q hql, dget_dset_ne _ hqe, dget_cons_ne _ _ (fun h => hqe h.symm)]

lemma nodupKeys_matmul2d (A B : Mat α) : NodupKeys (matmul2d A B) := by
  rw [matmul2d]
  exact nodupKeys_accum _ _ _ _ (by simp [NodupKeys, keys])

/-! ## Real-valued helpers: sigmoid, clamp, softmax -/

lemma sigmoid_nonneg (x : ℝ) : 0 ≤ sigmoid x := by
  rw [sigmoid]
  split_ifs
  · exact le_refl 0
  · exact zero_le_one
  · positivity

lemma sigmoid_le_one (x : ℝ) : sigmoid x ≤ 1 := by
  rw [sigmoid]
  split_ifs
  · exact zero_le_one
  · exact le_refl 1
  · rw [div_le_one (by positivity)]
    have := Real.exp_pos (-x)
    linarith

lemma sum_map_pos {γ : Type} {l : List γ} {f : γ → ℝ} (hne : l ≠ [])
    (hpos : ∀ a ∈ l, 0 < f a) : 0 < (l.map f).sum := by
  cases l with
  | nil => exact absurd rfl hne
  | cons a l =>
      have h1 : 0 < f a := hpos a (by simp)
      have h2 : 0 ≤ (l.map f).sum := by
        apply List.sum_nonneg
        intro z hz
        rcases List.mem_map.mp hz with ⟨b, hb, hzb⟩
        exact hzb ▸ le_of_lt (hpos b (by simp [hb]))
      calc (0:ℝ) < f a + (l.map f).sum := by linarith
        _ = ((a :: l).map f).sum := by simp

lemma softmax_of_ne {y : List (α × ℝ)} (h : y ≠ []) :
    softmax y = y.map (fun e =>
      (e.1, Real.exp (e.2 - maxVal y)
          / (y.map (fun e2 => Real.exp (e2.2 - maxVal y))).sum)) := by
  cases y with
  | nil => exact absurd rfl h
  | cons a l => rfl

lemma sum_map_div {γ : Type} (l : List γ) (f : γ → ℝ) (T : ℝ) :
    (l.map (fun a => f a / T)).sum = (l.map f).sum / T := by
  induction l with
  | nil => simp
  | cons a l ih => simp [ih, add_div]

/-! ## The claims -/

/-- C1: the specification says each key `k` of `dotvecmat(x, A)` holds the
accumulated sum of `x[i] * A[(i,k)]` over all matching entries.  The code
reads the running total at key `j` (`C.get(j, 0.)`) instead of key `k`, so
with `x = {1: 1, 2: 1}` and `A = {(1,0): 1, (2,0): 1}` the second matching
entry overwrites the first instead of accumulating: the result is
`{0: 1.0}` where the specification demands `{0: 2.0}`. -/
theorem dotvecmat_drops_accumulation :
    dotvecmat [((1:ℕ), (1:ℚ)), (2, 1)] [((1, 0), 1), ((2, 0), 1)] = [(0, 1)]
      ∧ dget (dotvecmat [((1:ℕ), (1:ℚ)), (2, 1)] [((1, 0), 1), ((2, 0), 1)]) 0 0
          ≠ 1 * 1 + 1 * 1 := by
  constructor
  · norm_num [dotvecmat, pyproduct, dset, dget]
  · norm_num [dotvecmat, pyproduct, dset, dget]

/-- C2: after `sherman_morrison(A_inv, u, v)`, with
`den = 1 + dot(dotvecmat(u, A_inv), v)` and
`correction = matmul2d(matmul2d(A_inv, outer(u, v)), A_inv)` taken over the
initial mapping, every key of `correction` holds
`A_inv.get(k, 0) - correction[k] / den` (created if absent), and every
other key keeps its prior binding. -/
theorem sherman_morrison_update (A_inv : Mat α) (u v : Vec α)
    (hden : 1 + dot (dotvecmat u A_inv) v ≠ 0) :
    (∀ q, containsKey (matmul2d (matmul2d A_inv (outer u v)) A_inv) q →
        dlook (sherman_morrison A_inv u v) q
          = some (dget A_inv q 0
              - dget (matmul2d (matmul2d A_inv (outer u v)) A_inv) q 0
                / (1 + dot (dotvecmat u A_inv) v)))
      ∧ (∀ q, ¬ containsKey (matmul2d (matmul2d A_inv (outer u v)) A_inv) q →
          dlook (sherman_morrison A_inv u v) q = dlook A_inv q) := by
  have hsm : sherman_morrison A_inv u v
      = (matmul2d (matmul2d A_inv (outer u v)) A_inv).foldl
          (fun acc e => dset acc e.1
            (dget acc e.1 0 - e.2 / (1 + dot (dotvecmat u A_inv) v))) A_inv := rfl
  constructor
  · intro q hq
    rw [hsm]
    exact updfold_mem (fun a b => a - b / (1 + dot (dotvecmat u A_inv) v)) _
      (nodupKeys_matmul2d _ _) A_inv q hq
  · intro q hq
    rw [hsm]
    exact updfold_not_mem (fun a b => a - b / (1 + dot (dotvecmat u A_inv) v)) _
      A_inv q hq

/-- Witness for C2 at the docstring example, key (1, 0). -/
theorem sherman_morrison_update_witness :
    dlook (sherman_morrison [(((0:ℕ), (0:ℕ)), (1/5 : ℚ)), ((1, 1), 1), ((2, 2), 1)]
        [(0, 1), (1, 2), (2, 3)] [(0, 4)]) (1, 0)
      = some (dget [(((0:ℕ), (0:ℕ)), (1/5 : ℚ)), ((1, 1), 1), ((2, 2), 1)] (1, 0) 0
          - dget (matmul2d
                (matmul2d [(((0:ℕ), (0:ℕ)), (1/5 : ℚ)), ((1, 1), 1), ((2, 2), 1)]
                  (outer [(0, 1), (1, 2), (2, 3)] [(0, 4)]))
                [(((0:ℕ), (0:ℕ)), (1/5 : ℚ)), ((1, 1), 1), ((2, 2), 1)]) (1, 0) 0
            / (1 + dot (dotvecmat [(0, 1), (1, 2), (2, 3)]
                [(((0:ℕ), (0:ℕ)), (1/5 : ℚ)), ((1, 1), 1), ((2, 2), 1)]) [(0, 4)])) := by
  refine (sherman_morrison_update _ _ _ ?_).1 (1, 0) ?_
  · norm_num [dot, dotvecmat, pyproduct, dset, dget]
  · norm_num [matmul2d, accum, outer, pyproduct, dset, dget,
      -Prod.mk_zero_zero, -Prod.mk_one_one]
    decide

/-- C3 counterexample: `chain_dot` on an empty argument tuple fails
(`min` raises `ValueError`, modelled as `none`) instead of returning an
identity-like value. -/
theorem chain_dot_empty_fails : chain_dot ([] : List (Vec ℕ)) = none := rfl

/-- C3 (amended): calling `chain_dot` with an empty sequence of vector
arguments fails (`min` of an empty sequence raises), rather than returning
an identity-like result; with at least one argument it returns a value. -/
theorem chain_dot_arity :
    chain_dot ([] : List (Vec α)) = none
      ∧ ∀ xs : List (Vec α), xs ≠ [] → (chain_dot xs).isSome = true := by
  refine ⟨rfl, ?_⟩
  intro xs hxs
  cases xs with
  | nil => exact absurd rfl hxs
  | cons x rest =>
      rw [chain_dot_cons]
      rfl

/-- Witness for C3 (amended) at a one-argument call. -/
theorem chain_dot_arity_witness :
    (chain_dot [[((0:ℕ), (1:ℚ))]]).isSome = true :=
  chain_dot_arity.2 [[((0:ℕ), (1:ℚ))]] (by simp)

/-- C4: `dot` is invariant under swapping its two arguments, and
`chain_dot` is invariant under any permutation of its argument tuple. -/
theorem dot_chain_dot_argument_order :
    (∀ x y : Vec α, NodupKeys x → NodupKeys y → dot x y = dot y x)
      ∧ (∀ xs ys : List (Vec α), (∀ d ∈ xs, NodupKeys d) → xs.Perm ys →
          chain_dot xs = chain_dot ys) := by
  constructor
  · intro x y hx hy
    rw [dot_eq_inter hx hy, dot_eq_inter hy hx, Finset.inter_comm]
    exact Finset.sum_congr rfl (fun k _ => mul_comm _ _)
  · intro xs ys hall hperm
    cases xs with
    | nil =>
        have : ys = [] := hperm.symm.eq_nil
        rw [this]
    | cons x rest =>
        cases ys with
        | nil => simpa using hperm.length_eq
        | cons y rest2 =>
            rw [chain_dot_cons, chain_dot_cons]
            have hm : (rest.foldl (fun acc y => if y.length < acc.length then y else acc) x)
                ∈ x :: rest := minByLen_mem rfl
            have hm2 : (rest2.foldl (fun acc y => if y.length < acc.length then y else acc) y)
                ∈ y :: rest2 := minByLen_mem rfl
            have hm2' : (rest2.foldl (fun acc y => if y.length < acc.length then y else acc) y)
                ∈ x :: rest := hperm.mem_iff.mpr hm2
            have hmap : ∀ mm : Vec α,
                (mm.map (fun e => pyprod ((y :: rest2).map (fun xv => dget xv e.1 0)))).sum
                  = (mm.map (fun e => pyprod ((x :: rest).map (fun xv => dget xv e.1 0)))).sum := by
              intro mm
              refine congrArg List.sum (List.map_congr_left ?_)
              intro e _
              rw [pyprod_eq_prod, pyprod_eq_prod]
              exact ((hperm.map (fun xv => dget xv e.1 0)).prod_eq).symm
            rw [hmap]
            exact congrArg some (chain_sum_member hall hm hm2')

/-- Witness for C4 at the documentation example vectors. -/
theorem dot_chain_dot_argument_order_witness :
    dot [((0:ℕ), (1:ℚ)), (1, 2)] [(1, 21), (2, 3)]
        = dot [(1, 21), (2, 3)] [((0:ℕ), (1:ℚ)), (1, 2)]
      ∧ chain_dot [[((0:ℕ), (1:ℚ)), (1, 2), (2, 1)], [(1, 21), (2, 3)]]
          = chain_dot [[(1, 21), (2, 3)], [((0:ℕ), (1:ℚ)), (1, 2), (2, 1)]] := by
  constructor
  · exact dot_chain_dot_argument_order.1 _ _ (by decide) (by decide)
  · exact dot_chain_dot_argument_order.2 _ _ (by decide)
      (List.Perm.swap [(1, 21), (2, 3)] [((0:ℕ), (1:ℚ)), (1, 2), (2, 1)] [])

/-- C5: entry `(i, j)` of `matmul2d(A, B)` is the sum of
`A[(i,k)] * B[(k,j)]` over every inner index `k` present in both, and the
key `(i, j)` is present exactly when at least one matching `k` exists. -/
theorem matmul2d_entries (A B : Mat α) (hA : NodupKeys A) (hB : NodupKeys B) :
    (∀ i j : α, dget (matmul2d A B) (i, j) 0
        = ∑ k ∈ innerMatch A B i j, dget A (i, k) 0 * dget B (k, j) 0)
      ∧ (∀ i j : α, containsKey (matmul2d A B) (i, j)
          ↔ ∃ k, containsKey A (i, k) ∧ containsKey B (k, j)) :=
  ⟨fun i j => matmul2d_dget hA hB i j, fun i j => matmul2d_mem A B i j⟩

/-- Witness for C5 at the docstring matrices, entry (0, 0). -/
theorem matmul2d_entries_witness :
    dget (matmul2d
        [(((0:ℕ), (0:ℕ)), (2:ℚ)), ((0, 1), 0), ((0, 2), 4), ((1, 0), 5), ((1, 1), 6), ((1, 2), 0)]
        [((0, 0), 1), ((0, 1), 1), ((0, 2), 0), ((0, 3), 0),
         ((1, 0), 2), ((1, 1), 0), ((1, 2), 1), ((1, 3), 3),
         ((2, 0), 4), ((2, 1), 0), ((2, 2), 0), ((2, 3), 0)]) (0, 0) 0
      = ∑ k ∈ innerMatch
          [(((0:ℕ), (0:ℕ)), (2:ℚ)), ((0, 1), 0), ((0, 2), 4), ((1, 0), 5), ((1, 1), 6), ((1, 2), 0)]
          [((0, 0), 1), ((0, 1), 1), ((0, 2), 0), ((0, 3), 0),
           ((1, 0), 2), ((1, 1), 0), ((1, 2), 1), ((1, 3), 3),
           ((2, 0), 4), ((2, 1), 0), ((2, 2), 0), ((2, 3), 0)] 0 0,
          dget [(((0:ℕ), (0:ℕ)), (2:ℚ)), ((0, 1), 0), ((0, 2), 4), ((1, 0), 5), ((1, 1), 6), ((1, 2), 0)]
            (0, k) 0
            * dget [((0, 0), 1), ((0, 1), 1), ((0, 2), 0), ((0, 3), 0),
                ((1, 0), 2), ((1, 1), 0), ((1, 2), 1), ((1, 3), 3),
                ((2, 0), 4), ((2, 1), 0), ((2, 2), 0), ((2, 3), 0)] (k, 0) 0 :=
  (matmul2d_entries _ _ (by decide) (by decide)).1 0 0

/-- C6: the values of `softmax(y)` sum to exactly 1 (over exact real
arithmetic) whenever `y` is non-empty, and `softmax` of the empty mapping
is the empty mapping unchanged. -/
theorem softmax_sum_one (y : List (α × ℝ)) :
    (y ≠ [] → sumValues (softmax y) = 1) ∧ (y = [] → softmax y = y) := by
  constructor
  · intro hne
    rw [softmax_of_ne hne, sumValues, List.map_map]
    have hT : (0:ℝ) < (y.map (fun e2 => Real.exp (e2.2 - maxVal y))).sum :=
      sum_map_pos hne (fun a _ => Real.exp_pos _)
    have hcomp :
        (y.map (Prod.snd ∘ fun e =>
            (e.1, Real.exp (e.2 - maxVal y)
              / (y.map (fun e2 => Real.exp (e2.2 - maxVal y))).sum))).sum
          = (y.map (fun e => Real.exp (e.2 - maxVal y)
              / (y.map (fun e2 => Real.exp (e2.2 - maxVal y))).sum)).sum := rfl
    rw [hcomp, sum_map_div]
    exact div_self (ne_of_gt hT)
  · intro he
    rw [he]
    rfl

/-- Witness for C6 at a singleton mapping. -/
theorem softmax_sum_one_witness : sumValues (softmax [((0:ℕ), (0:ℝ))]) = 1 :=
  (softmax_sum_one [((0:ℕ), (0:ℝ))]).1 (by simp)

/-- C7: `sigmoid` returns 0 below -30, 1 above 30, and the logistic value
in between; its value always lies in `[0, 1]` and `sigmoid 0 = 0.5`. -/
theorem sigmoid_branches :
    (∀ x : ℝ, (x < -30 → sigmoid x = 0) ∧ (x > 30 → sigmoid x = 1)
        ∧ (¬ x < -30 → ¬ x > 30 → sigmoid x = 1 / (1 + Real.exp (-x)))
        ∧ 0 ≤ sigmoid x ∧ sigmoid x ≤ 1)
      ∧ sigmoid 0 = 1 / 2 := by
  constructor
  · intro x
    refine ⟨?_, ?_, ?_, sigmoid_nonneg x, sigmoid_le_one x⟩
    · intro h
      rw [sigmoid, if_pos h]
    · intro h
      rw [sigmoid, if_neg (by linarith), if_pos h]
    · intro h1 h2
      rw [sigmoid, if_neg h1, if_neg h2]
  · rw [sigmoid, if_neg (by norm_num), if_neg (by norm_num), neg_zero, Real.exp_zero]
    norm_num

/-- Witness for C7 exercising all three branches. -/
theorem sigmoid_branches_witness :
    sigmoid (-31 : ℝ) = 0 ∧ sigmoid (31 : ℝ) = 1
      ∧ sigmoid (0 : ℝ) = 1 / (1 + Real.exp (-(0:ℝ))) :=
  ⟨(sigmoid_branches.1 (-31)).1 (by norm_num),
   (sigmoid_branches.1 31).2.1 (by norm_num),
   (sigmoid_branches.1 0).2.2.1 (by norm_num) (by norm_num)⟩

/-- C8: with an inverted range (`minimum > maximum`) `clamp` silently
returns `minimum`; with a proper range the result lies in
`[minimum, maximum]`. -/
theorem clamp_bounds :
    ∀ x minimum maximum : ℝ,
      (maximum < minimum → clamp x minimum maximum = minimum)
        ∧ (minimum ≤ maximum →
            minimum ≤ clamp x minimum maximum ∧ clamp x minimum maximum ≤ maximum) := by
  intro x mn mx
  constructor
  · intro h
    rw [clamp]
    exact max_eq_right (le_of_lt (lt_of_le_of_lt (min_le_right x mx) h))
  · intro h
    exact ⟨le_max_right _ _, max_le (min_le_right x mx) h⟩

/-- Witness for C8 on a degenerate and a proper range. -/
theorem clamp_bounds_witness :
    clamp (5:ℝ) 3 1 = 3 ∧ (1:ℝ) ≤ clamp 5 1 2 ∧ clamp (5:ℝ) 1 2 ≤ 2 :=
  ⟨(clamp_bounds 5 3 1).1 (by norm_num),
   ((clamp_bounds 5 1 2).2 (by norm_num)).1,
   ((clamp_bounds 5 1 2).2 (by norm_num)).2⟩

/-- C9: `sigmoid` is monotone non-decreasing on all of ℝ, including across
the clipping thresholds at -30 and 30. -/
theorem sigmoid_monotone : ∀ x y : ℝ, x ≤ y → sigmoid x ≤ sigmoid y := by
  intro x y hxy
  by_cases hx1 : x < -30
  · rw [show sigmoid x = 0 from by rw [sigmoid, if_pos hx1]]
    exact sigmoid_nonneg y
  · by_cases hy2 : y > 30
    · rw [show sigmoid y = 1 from by
        rw [sigmoid, if_neg (by linarith), if_pos hy2]]
      exact sigmoid_le_one x
    · have hy1 : ¬ y < -30 := by
        intro h
        exact hx1 (by linarith)
      have hx2 : ¬ x > 30 := by
        intro h
        exact hy2 (by linarith)
      rw [sigmoid, sigmoid, if_neg hx1, if_neg hx2, if_neg hy1, if_neg hy2]
      have h1 : (0:ℝ) < 1 + Real.exp (-y) := by positivity
      have h2 : 1 + Real.exp (-y) ≤ 1 + Real.exp (-x) := by
        have := Real.exp_le_exp.mpr (neg_le_neg hxy)
        linarith
      exact one_div_le_one_div_of_le h1 h2

/-- Witness for C9 at 0 ≤ 1. -/
theorem sigmoid_monotone_witness : sigmoid (0:ℝ) ≤ sigmoid 1 :=
  sigmoid_monotone 0 1 (by norm_num)

/-- C10: `softmax` preserves the key list of its argument exactly, and on
a non-empty mapping every resulting value is strictly positive. -/
theorem softmax_preserves_keys (y : List (α × ℝ)) :
    keys (softmax y) = keys y ∧ (y ≠ [] → ∀ e ∈ softmax y, 0 < e.2) := by
  constructor
  · by_cases h : y = []
    · rw [h]
      rfl
    · rw [softmax_of_ne h]
      simp only [keys, List.map_map]
      rfl
  · intro hne e he
    rw [softmax_of_ne hne] at he
    rcases List.mem_map.mp he with ⟨a, _, hae⟩
    rw [← hae]
    exact div_pos (Real.exp_pos _) (sum_map_pos hne (fun b _ => Real.exp_pos _))

/-- Witness for C10 at a singleton mapping, looking at its only entry. -/
theorem softmax_preserves_keys_witness :
    keys (softmax [((0:ℕ), (0:ℝ))]) = keys [((0:ℕ), (0:ℝ))]
      ∧ 0 < (Real.exp ((0:ℝ) - maxVal [((0:ℕ), (0:ℝ))])
          / ([((0:ℕ), (0:ℝ))].map (fun e2 => Real.exp (e2.2 - maxVal [((0:ℕ), (0:ℝ))]))).sum) := by
  have h := softmax_preserves_keys [((0:ℕ), (0:ℝ))]
  refine ⟨h.1, ?_⟩
  have hmem : ((0:ℕ), Real.exp ((0:ℝ) - maxVal [((0:ℕ), (0:ℝ))])
      / ([((0:ℕ), (0:ℝ))].map (fun e2 => Real.exp (e2.2 - maxVal [((0:ℕ), (0:ℝ))]))).sum)
        ∈ softmax [((0:ℕ), (0:ℝ))] := by
    rw [softmax_of_ne (by simp : ([((0:ℕ), (0:ℝ))] : List (ℕ × ℝ)) ≠ [])]
    simp
  exact h.2 (by simp) _ hmem

example : dot [((0:ℕ), (1:ℚ)), (1, 2)] [(1, 21), (2, 3)] = 42 := by
  norm_num [dot, dget]

example :
    chain_dot [[((0:ℕ), (1:ℚ)), (1, 2), (2, 1)], [(1, 21), (2, 3)], [(1, 2), (2, 1/3)]]
      = some 85 := by
  norm_num [chain_dot, minByLen, pyprod, dget]

example :
    outer [((0:ℕ), (1:ℚ)), (1, 2), (2, 3)] [(0, 2), (1, 4), (2, 8)]
      = [((0, 0), 2), ((0, 1), 4), ((0, 2), 8), ((1, 0), 4), ((1, 1), 8), ((1, 2), 16),
         ((2, 0), 6), ((2, 1), 12), ((2, 2), 24)] := by
  norm_num [outer, pyproduct, dset, dget, -Prod.mk_zero_zero, -Prod.mk_one_one]

example :
    matmul2d
      [(((0:ℕ), (0:ℕ)), (2:ℚ)), ((0, 1), 0), ((0, 2), 4), ((1, 0), 5), ((1, 1), 6), ((1, 2), 0)]
      [((0, 0), 1), ((0, 1), 1), ((0, 2), 0), ((0, 3), 0),
       ((1, 0), 2), ((1, 1), 0), ((1, 2), 1), ((1, 3), 3),
       ((2, 0), 4), ((2, 1), 0), ((2, 2), 0), ((2, 3), 0)]
      = [((0, 0), 18), ((0, 1), 2), ((0, 2), 0), ((0, 3), 0),
         ((1, 0), 17), ((1, 1), 5), ((1, 2), 6), ((1, 3), 18)] := by
  norm_num [matmul2d, accum, pyproduct, dset, dget, -Prod.mk_zero_zero, -Prod.mk_one_one]

example :
    sherman_morrison [(((0:ℕ), (0:ℕ)), (1/5 : ℚ)), ((1, 1), 1), ((2, 2), 1)]
      [(0, 1), (1, 2), (2, 3)] [(0, 4)]
      = [((0, 0), 1/9), ((1, 1), 1), ((2, 2), 1), ((1, 0), -8/9), ((2, 0), -4/3)] := by
  norm_num [sherman_morrison, matmul2d, accum, outer, dotvecmat, dot, pyproduct, dset, dget, -Prod.mk_zero_zero, -Prod.mk_one_one]

example :
    dotvecmat [((1:ℕ), (1:ℚ)), (2, 1)] [((1, 0), 1), ((2, 0), 1)] = [(0, 1)] := by
  norm_num [dotvecmat, pyproduct, dset, dget]

end CremeMath
